import Mathlib

/-
Verification of the duplicate-file detection pipeline in Detection.py.

The file system is modelled as a snapshot: the ordered list of file paths the
directory walk yields, together with the outcome of a size query (os.path.getsize)
and of a full read for every path.  An operating-system call that raises OSError
is modelled by the value none.  Paths are an abstract type with decidable
equality, since the pipeline depends only on path identity.

The md5 object of hashlib is modelled by an abstract digest function applied to
the byte stream fed through update: the hasher state after a sequence of update
calls is determined by the concatenation of the fed chunks, and hexdigest is the
abstract function hasher applied to that stream.  hexdigest always returns a
nonempty 32-character string, so the truthiness test on the returned value in
find_duplicates_by_hash is equivalent to a test against None and is modelled by
a match on Option.
-/

namespace TwinTrim

/-- A snapshot of the file system as one scan observes it: the file paths
produced by os.walk in walk order, the result of os.path.getsize per path, and
the bytes a full read of the path returns.  A failing call is the value none. -/
structure FS (P : Type) where
  walk : List P
  size : P → Option Nat
  content : P → Option (List Nat)

/-- One dictionary step dict[k].append(v) on a defaultdict(list), represented
as an insertion-ordered association list as Python dicts preserve insertion
order: an existing key keeps its position and appends, a new key goes last. -/
def insertGroup {K V : Type} [DecidableEq K] (k : K) (v : V) :
    List (K × List V) → List (K × List V)
  | [] => [(k, [v])]
  | (k₀, g) :: rest =>
      if k₀ = k then (k₀, g ++ [v]) :: rest else (k₀, g) :: insertGroup k v rest

/-- The accumulation loop shared by both passes of Detection.py: for each item
in order, compute an optional key; on success append the item to its key group,
on failure (the except branch, or a falsy hash) skip the item and continue. -/
def groupAcc {K V : Type} [DecidableEq K] (key : V → Option K) :
    List V → List (K × List V) → List (K × List V)
  | [], acc => acc
  | v :: vs, acc =>
      match key v with
      | some k => groupAcc key vs (insertGroup k v acc)
      | none => groupAcc key vs acc

/-- Detection.py lines 5-29, find_duplicates_by_size: walk the tree, group the
paths whose stat succeeds by byte size, then drop every group with fewer than
two members. -/
def find_duplicates_by_size {P : Type} [DecidableEq P] (fs : FS P) :
    List (Nat × List P) :=
  (groupAcc fs.size fs.walk []).filter (fun g => decide (1 < g.2.length))

/-- Detection.py lines 23-24: the diagnostic printed for each walked file whose
stat raises OSError, identified by the offending path. -/
def size_errors {P : Type} (fs : FS P) : List P :=
  fs.walk.filter (fun p => (fs.size p).isNone)

/-- The sequence of buffers the read loop of hash_file obtains: f.read(n)
returns the next min(n, remaining) bytes, and returns an empty buffer at end of
file or when n = 0, which ends the while loop. -/
def readChunks (block_size : Nat) (buf : List Nat) : List (List Nat) :=
  if h : block_size = 0 ∨ buf = [] then []
  else buf.take block_size :: readChunks block_size (buf.drop block_size)
termination_by buf.length
decreasing_by
  push_neg at h
  have h1 : 0 < block_size := Nat.pos_of_ne_zero h.1
  have h2 : 0 < buf.length := List.length_pos.mpr h.2
  simp only [List.length_drop]
  omega

/-- Detection.py lines 31-53, hash_file: read the file in blocks, feeding each
block to the md5 object; an OSError while opening or reading returns None with
a diagnostic, otherwise the digest of the fed stream is returned. -/
def hash_file {D P : Type} (hasher : List Nat → D) (fs : FS P)
    (file_path : P) (block_size : Nat := 65536) : Option D :=
  match fs.content file_path with
  | none => none
  | some buf =>
      some (hasher ((readChunks block_size buf).foldl (fun fed c => fed ++ c) []))

/-- Detection.py lines 65-71: the two nested loops of find_duplicates_by_hash.
The hash dictionary is one defaultdict threaded through every size group. -/
def hashLoop {D P : Type} [DecidableEq D] (hasher : List Nat → D) (fs : FS P) :
    List (Nat × List P) → List (D × List P) → List (D × List P)
  | [], acc => acc
  | g :: rest, acc =>
      hashLoop hasher fs rest (groupAcc (fun p => hash_file hasher fs p) g.2 acc)

/-- Detection.py lines 55-76, find_duplicates_by_hash: hash every path of every
size group into one digest dictionary, skipping paths whose hash is None, then
drop every digest group with fewer than two members. -/
def find_duplicates_by_hash {D P : Type} [DecidableEq D] (hasher : List Nat → D)
    (fs : FS P) (size_dict : List (Nat × List P)) : List (D × List P) :=
  (hashLoop hasher fs size_dict []).filter (fun g => decide (1 < g.2.length))

/-- Detection.py line 50: the diagnostic printed inside hash_file for each path
of the hash pass whose open or read raises OSError, identified by the path. -/
def hash_errors {P : Type} (fs : FS P) (size_dict : List (Nat × List P)) :
    List P :=
  (size_dict.flatMap (fun g => g.2)).filter (fun p => (fs.content p).isNone)

/-- The observable outcome of the main block, Detection.py lines 90-103: the
no-duplicates-by-size message, the no-duplicates-by-content message, or the
displayed duplicate report. -/
inductive ScanReport (D P : Type) where
  | noSizeDuplicates : ScanReport D P
  | noContentDuplicates : ScanReport D P
  | duplicates : List (D × List P) → ScanReport D P
  deriving DecidableEq

/-- Detection.py lines 90-103: run the size pass; on an empty result report no
duplicates by size, otherwise run the hash pass and report either no duplicates
by content or the duplicate groups. -/
def main_scan {D P : Type} [DecidableEq D] [DecidableEq P]
    (hasher : List Nat → D) (fs : FS P) : ScanReport D P :=
  let size_duplicates := find_duplicates_by_size fs
  if size_duplicates = [] then ScanReport.noSizeDuplicates
  else
    let content_duplicates := find_duplicates_by_hash hasher fs size_duplicates
    if content_duplicates = [] then ScanReport.noContentDuplicates
    else ScanReport.duplicates content_duplicates

/-- The script never calls sys.exit and catches every per-file OSError, so each
completed run of the main block ends with process exit status zero, whatever
the root path was. -/
def main_exit_code {D P : Type} (hasher : List Nat → D) (fs : FS P) : Nat := 0

/-- Inserting under a key absent from the dictionary appends a fresh singleton
group at the end. -/
theorem insertGroup_of_not_mem {K V : Type} [DecidableEq K] {k : K} (v : V)
    {acc : List (K × List V)} (hk : k ∉ acc.map Prod.fst) :
    insertGroup k v acc = acc ++ [(k, [v])] := by
  induction acc with
  | nil => rfl
  | cons hd rest ih =>
      obtain ⟨k₀, g₀⟩ := hd
      simp only [List.map_cons, List.mem_cons] at hk
      push_neg at hk
      have hne : ¬ k₀ = k := fun h => hk.1 h.symm
      simp only [insertGroup]
      rw [if_neg hne, ih hk.2]
      simp

/-- Inserting under a key already present leaves the key sequence unchanged. -/
theorem keys_insertGroup_of_mem {K V : Type} [DecidableEq K] {k : K} (v : V)
    {acc : List (K × List V)} (hk : k ∈ acc.map Prod.fst) :
    (insertGroup k v acc).map Prod.fst = acc.map Prod.fst := by
  induction acc with
  | nil => simp at hk
  | cons hd rest ih =>
      obtain ⟨k₀, g₀⟩ := hd
      by_cases h0 : k₀ = k
      · simp only [insertGroup, if_pos h0, List.map_cons]
      · simp only [List.map_cons, List.mem_cons] at hk
        rcases hk with h | h
        · exact absurd h.symm h0
        · simp only [insertGroup, if_neg h0, List.map_cons, ih h]

/-- What an entry of the dictionary looks like after one insertion, assuming
distinct keys: an untouched entry of a different key, the entry of the inserted
key with the value appended, or a fresh singleton for a previously absent key. -/
theorem mem_insertGroup {K V : Type} [DecidableEq K] {k : K} {v : V}
    {acc : List (K × List V)} {kg : K × List V}
    (hnd : (acc.map Prod.fst).Nodup) (hmem : kg ∈ insertGroup k v acc) :
    (kg ∈ acc ∧ kg.1 ≠ k) ∨
      (∃ g, (k, g) ∈ acc ∧ kg = (k, g ++ [v])) ∨
      (kg = (k, [v]) ∧ k ∉ acc.map Prod.fst) := by
  induction acc with
  | nil =>
      simp only [insertGroup, List.mem_singleton] at hmem
      exact Or.inr (Or.inr ⟨hmem, by simp⟩)
  | cons hd rest ih =>
      obtain ⟨k₀, g₀⟩ := hd
      simp only [List.map_cons, List.nodup_cons] at hnd
      by_cases h0 : k₀ = k
      · subst h0
        simp only [insertGroup, if_pos rfl] at hmem
        rcases List.mem_cons.mp hmem with h | h
        · exact Or.inr (Or.inl ⟨g₀, List.mem_cons_self _ _, h⟩)
        · refine Or.inl ⟨List.mem_cons_of_mem _ h, fun hkk => ?_⟩
          exact hnd.1 (List.mem_map.mpr ⟨kg, h, hkk⟩)
      · simp only [insertGroup, if_neg h0] at hmem
        rcases List.mem_cons.mp hmem with h | h
        · subst h
          exact Or.inl ⟨List.mem_cons_self _ _, h0⟩
        · rcases ih hnd.2 h with h1 | h2 | h3
          · exact Or.inl ⟨List.mem_cons_of_mem _ h1.1, h1.2⟩
          · obtain ⟨g, hg, hkg⟩ := h2
            exact Or.inr (Or.inl ⟨g, List.mem_cons_of_mem _ hg, hkg⟩)
          · refine Or.inr (Or.inr ⟨h3.1, ?_⟩)
            simp only [List.map_cons, List.mem_cons]
            intro hcon
            rcases hcon with h | h
            · exact h0 h.symm
            · exact h3.2 h

/-- The loop invariant of groupAcc over the processed prefix: the keys are
distinct, each group equals the prefix filtered to the items carrying its key,
in prefix order, and a key is present exactly when some processed item
produced it. -/
def GroupInv {K V : Type} [DecidableEq K] (key : V → Option K) (pfx : List V)
    (acc : List (K × List V)) : Prop :=
  (acc.map Prod.fst).Nodup ∧
    (∀ kg ∈ acc, kg.2 = pfx.filter (fun v => decide (key v = some kg.1))) ∧
    (∀ k, k ∈ acc.map Prod.fst ↔ ∃ v ∈ pfx, key v = some k)

/-- Processing an item whose key computation succeeds preserves the loop
invariant. -/
theorem groupInv_step_some {K V : Type} [DecidableEq K] {key : V → Option K}
    {pfx : List V} {acc : List (K × List V)} {v : V} {k : K}
    (hinv : GroupInv key pfx acc) (hv : key v = some k) :
    GroupInv key (pfx ++ [v]) (insertGroup k v acc) := by
  obtain ⟨hnd, hflt, hkeys⟩ := hinv
  have hfilter_other : ∀ k₁ : K, k₁ ≠ k →
      List.filter (fun w => decide (key w = some k₁)) [v] = [] := by
    intro k₁ h1
    simp [hv]
    exact fun h => h1 h.symm
  have hfilter_same : List.filter (fun w => decide (key w = some k)) [v] = [v] := by
    simp [hv]
  by_cases hk : k ∈ acc.map Prod.fst
  · refine ⟨by rw [keys_insertGroup_of_mem v hk]; exact hnd, ?_, ?_⟩
    · intro kg hkg
      rcases mem_insertGroup hnd hkg with h1 | h2 | h3
      · rw [List.filter_append, hfilter_other kg.1 h1.2, List.append_nil]
        exact hflt kg h1.1
      · obtain ⟨g, hg, rfl⟩ := h2
        rw [List.filter_append]
        have := hflt (k, g) hg
        simpa [hfilter_same] using congrArg (fun l => l ++ [v]) this
      · exact absurd hk h3.2
    · intro k₁
      rw [keys_insertGroup_of_mem v hk, hkeys k₁]
      constructor
      · rintro ⟨w, hw, hkw⟩
        exact ⟨w, List.mem_append_left _ hw, hkw⟩
      · rintro ⟨w, hw, hkw⟩
        rcases List.mem_append.mp hw with h | h
        · exact ⟨w, h, hkw⟩
        · obtain rfl := List.mem_singleton.mp h
          rw [hv] at hkw
          obtain rfl := Option.some.inj hkw
          exact (hkeys k).mp hk
  · rw [insertGroup_of_not_mem v hk]
    refine ⟨?_, ?_, ?_⟩
    · rw [List.map_append]
      rw [List.nodup_append]
      refine ⟨hnd, by simp, ?_⟩
      intro a ha hb
      simp only [List.map_cons, List.map_nil, List.mem_singleton] at hb
      subst hb
      exact hk ha
    · intro kg hkg
      rcases List.mem_append.mp hkg with h | h
      · have hne : kg.1 ≠ k := fun hkk => hk (List.mem_map.mpr ⟨kg, h, hkk⟩)
        rw [List.filter_append, hfilter_other kg.1 hne, List.append_nil]
        exact hflt kg h
      · obtain rfl := List.mem_singleton.mp h
        rw [List.filter_append]
        have hpfx : List.filter (fun w => decide (key w = some k)) pfx = [] := by
          rw [List.filter_eq_nil_iff]
          intro w hw hcon
          exact hk ((hkeys k).mpr ⟨w, hw, of_decide_eq_true hcon⟩)
        rw [hpfx, hfilter_same]
        rfl
    · intro k₁
      rw [List.map_append]
      simp only [List.map_cons, List.map_nil, List.mem_append, List.mem_singleton]
      rw [hkeys k₁]
      constructor
      · rintro (⟨w, hw, hkw⟩ | rfl)
        · exact ⟨w, Or.inl hw, hkw⟩
        · exact ⟨v, Or.inr rfl, hv⟩
      · rintro ⟨w, hw, hkw⟩
        rcases hw with h | h
        · exact Or.inl ⟨w, h, hkw⟩
        · subst h
          rw [hv] at hkw
          exact Or.inr (Option.some.inj hkw).symm

/-- Processing an item whose key computation fails preserves the loop
invariant without touching the dictionary. -/
theorem groupInv_step_none {K V : Type} [DecidableEq K] {key : V → Option K}
    {pfx : List V} {acc : List (K × List V)} {v : V}
    (hinv : GroupInv key pfx acc) (hv : key v = none) :
    GroupInv key (pfx ++ [v]) acc := by
  obtain ⟨hnd, hflt, hkeys⟩ := hinv
  refine ⟨hnd, ?_, ?_⟩
  · intro kg hkg
    rw [List.filter_append]
    have hone : List.filter (fun w => decide (key w = some kg.1)) [v] = [] := by
      simp [hv]
    rw [hone, List.append_nil]
    exact hflt kg hkg
  · intro k₁
    rw [hkeys k₁]
    constructor
    · rintro ⟨w, hw, hkw⟩
      exact ⟨w, List.mem_append_left _ hw, hkw⟩
    · rintro ⟨w, hw, hkw⟩
      rcases List.mem_append.mp hw with h | h
      · exact ⟨w, h, hkw⟩
      · obtain rfl := List.mem_singleton.mp h
        rw [hv] at hkw
        cases hkw

/-- The loop invariant carries from any starting state through any run of the
accumulation loop. -/
theorem groupAcc_inv {K V : Type} [DecidableEq K] (key : V → Option K) :
    ∀ (vs pfx : List V) (acc : List (K × List V)),
      GroupInv key pfx acc → GroupInv key (pfx ++ vs) (groupAcc key vs acc) := by
  intro vs
  induction vs with
  | nil => intro pfx acc h; simpa [groupAcc] using h
  | cons v rest ih =>
      intro pfx acc h
      cases hv : key v with
      | some k =>
          have step := ih (pfx ++ [v]) (insertGroup k v acc) (groupInv_step_some h hv)
          simpa [groupAcc, hv, List.append_assoc] using step
      | none =>
          have step := ih (pfx ++ [v]) acc (groupInv_step_none h hv)
          simpa [groupAcc, hv, List.append_assoc] using step

/-- The characterization of a finished run of the accumulation loop started on
the empty dictionary. -/
theorem groupAcc_spec {K V : Type} [DecidableEq K] (key : V → Option K)
    (vs : List V) : GroupInv key vs (groupAcc key vs []) := by
  have h0 : GroupInv key ([] : List V) ([] : List (K × List V)) := by
    refine ⟨List.nodup_nil, ?_, ?_⟩
    · intro kg hkg
      exact absurd hkg (List.not_mem_nil kg)
    · intro k
      simp
  simpa using groupAcc_inv key vs [] [] h0

/-- Each produced group is exactly the input filtered to the items carrying the
group key, in input order. -/
theorem mem_groupAcc_eq_filter {K V : Type} [DecidableEq K] {key : V → Option K}
    {vs : List V} {kg : K × List V} (h : kg ∈ groupAcc key vs []) :
    kg.2 = vs.filter (fun v => decide (key v = some kg.1)) :=
  (groupAcc_spec key vs).2.1 kg h

/-- The produced keys are distinct. -/
theorem groupAcc_keys_nodup {K V : Type} [DecidableEq K] (key : V → Option K)
    (vs : List V) : ((groupAcc key vs []).map Prod.fst).Nodup :=
  (groupAcc_spec key vs).1

/-- An item found inside a produced group carries that group key and came from
the input. -/
theorem mem_of_mem_groupAcc {K V : Type} [DecidableEq K] {key : V → Option K}
    {vs : List V} {kg : K × List V} (h : kg ∈ groupAcc key vs [])
    {p : V} (hp : p ∈ kg.2) : key p = some kg.1 ∧ p ∈ vs := by
  rw [mem_groupAcc_eq_filter h] at hp
  have hmem := List.mem_filter.mp hp
  exact ⟨of_decide_eq_true hmem.2, hmem.1⟩

/-- Every input item with a successful key lands in the group of its key. -/
theorem exists_groupAcc_mem {K V : Type} [DecidableEq K] {key : V → Option K}
    {vs : List V} {p : V} {k : K} (hp : p ∈ vs) (hk : key p = some k) :
    ∃ g, (k, g) ∈ groupAcc key vs [] ∧ p ∈ g := by
  have hkey : k ∈ (groupAcc key vs []).map Prod.fst :=
    ((groupAcc_spec key vs).2.2 k).mpr ⟨p, hp, hk⟩
  obtain ⟨kg, hkg, hfst⟩ := List.mem_map.mp hkey
  obtain ⟨k₁, g⟩ := kg
  simp only at hfst
  subst hfst
  refine ⟨g, hkg, ?_⟩
  have := mem_groupAcc_eq_filter hkg
  simp only at this
  rw [this]
  exact List.mem_filter.mpr ⟨hp, decide_eq_true hk⟩

/-- Splitting the input splits the loop. -/
theorem groupAcc_append {K V : Type} [DecidableEq K] (key : V → Option K)
    (xs ys : List V) :
    ∀ acc, groupAcc key (xs ++ ys) acc = groupAcc key ys (groupAcc key xs acc) := by
  induction xs with
  | nil => intro acc; rfl
  | cons v rest ih =>
      intro acc
      cases hv : key v <;> simp [groupAcc, hv, ih]

/-- The loop only looks at the keys of its input items. -/
theorem groupAcc_congr {K V : Type} [DecidableEq K] {key₁ key₂ : V → Option K}
    {vs : List V} (h : ∀ v ∈ vs, key₁ v = key₂ v) :
    ∀ acc, groupAcc key₁ vs acc = groupAcc key₂ vs acc := by
  induction vs with
  | nil => intro acc; rfl
  | cons v rest ih =>
      intro acc
      have hv := h v (List.mem_cons_self _ _)
      have hrest : ∀ w ∈ rest, key₁ w = key₂ w :=
        fun w hw => h w (List.mem_cons_of_mem _ hw)
      simp only [groupAcc]
      rw [← hv]
      cases hv1 : key₁ v <;> simp [hv1, ih hrest]

/-- Items whose key computation fails can be dropped from the input without
changing the result: a failing item never disturbs the remaining ones. -/
theorem groupAcc_filter_isSome {K V : Type} [DecidableEq K] (key : V → Option K)
    (vs : List V) :
    ∀ acc, groupAcc key (vs.filter (fun v => (key v).isSome)) acc =
      groupAcc key vs acc := by
  induction vs with
  | nil => intro acc; rfl
  | cons v rest ih =>
      intro acc
      cases hv : key v with
      | some k => simp [List.filter_cons, hv, groupAcc, ih]
      | none => simp [List.filter_cons, hv, groupAcc, ih]

/-- The two nested loops of the hash pass are the accumulation loop over the
concatenation of all size-group path lists, since the hash dictionary is
threaded through every group. -/
theorem hashLoop_eq {D P : Type} [DecidableEq D] (hasher : List Nat → D)
    (fs : FS P) :
    ∀ (sd : List (Nat × List P)) (acc : List (D × List P)),
      hashLoop hasher fs sd acc =
        groupAcc (fun p => hash_file hasher fs p) (sd.flatMap (fun g => g.2)) acc := by
  intro sd
  induction sd with
  | nil => intro acc; rfl
  | cons g rest ih =>
      intro acc
      simp [hashLoop, List.flatMap_cons, groupAcc_append, ih]

theorem readChunks_nil (block_size : Nat) : readChunks block_size [] = [] := by
  rw [readChunks]
  simp

theorem readChunks_flatten_aux (block_size : Nat) (hbs : 0 < block_size) :
    ∀ (n : Nat) (buf : List Nat), buf.length ≤ n →
      (readChunks block_size buf).flatten = buf := by
  intro n
  induction n with
  | zero =>
      intro buf hlen
      obtain rfl := List.length_eq_zero.mp (Nat.le_zero.mp hlen)
      simp [readChunks_nil]
  | succ n ih =>
      intro buf hlen
      by_cases hb : buf = []
      · subst hb
        simp [readChunks_nil]
      · rw [readChunks,
          dif_neg (by push_neg; exact ⟨Nat.pos_iff_ne_zero.mp hbs, hb⟩)]
        rw [List.flatten_cons]
        rw [ih (buf.drop block_size)
          (by rw [List.length_drop]; omega)]
        exact List.take_append_drop block_size buf

/-- The concatenation of the read chunks is the whole file content, for any
positive block size. -/
theorem readChunks_flatten {block_size : Nat} (hbs : 0 < block_size)
    (buf : List Nat) : (readChunks block_size buf).flatten = buf :=
  readChunks_flatten_aux block_size hbs buf.length buf (le_refl _)

/-- Feeding chunks one by one accumulates their concatenation. -/
theorem foldl_append_eq_flatten (chunks : List (List Nat)) :
    ∀ fed : List Nat,
      chunks.foldl (fun fed c => fed ++ c) fed = fed ++ chunks.flatten := by
  induction chunks with
  | nil => intro fed; simp
  | cons c rest ih =>
      intro fed
      simp [ih, List.append_assoc]

/-- hash_file on a readable file returns the digest of the entire content, for
any positive block size. -/
theorem hash_file_eq {D P : Type} (hasher : List Nat → D) (fs : FS P) (p : P)
    (block_size : Nat) (hbs : 0 < block_size) (buf : List Nat)
    (hc : fs.content p = some buf) :
    hash_file hasher fs p block_size = some (hasher buf) := by
  simp only [hash_file, hc]
  rw [foldl_append_eq_flatten, readChunks_flatten hbs]
  simp

/-- hash_file on an unreadable file returns None, for any block size. -/
theorem hash_file_none {D P : Type} (hasher : List Nat → D) (fs : FS P) (p : P)
    (block_size : Nat) (hc : fs.content p = none) :
    hash_file hasher fs p block_size = none := by
  simp only [hash_file, hc]

/-- A path found in a retained size group was walked and has the group size. -/
theorem mem_size_group {P : Type} [DecidableEq P] {fs : FS P}
    {g : Nat × List P} (hg : g ∈ find_duplicates_by_size fs)
    {p : P} (hp : p ∈ g.2) : p ∈ fs.walk ∧ fs.size p = some g.1 := by
  have hmem := List.mem_of_mem_filter hg
  have h2 := mem_of_mem_groupAcc hmem hp
  exact ⟨h2.2, h2.1⟩

/-- Retained size groups have at least two members. -/
theorem size_group_two_le {P : Type} [DecidableEq P] {fs : FS P}
    {g : Nat × List P} (hg : g ∈ find_duplicates_by_size fs) :
    2 ≤ g.2.length := by
  have hlen := of_decide_eq_true (List.mem_filter.mp hg).2
  omega

/-- Retained digest groups have at least two members. -/
theorem hash_group_two_le {D P : Type} [DecidableEq D] [DecidableEq P]
    {hasher : List Nat → D} {fs : FS P} {sd : List (Nat × List P)}
    {kg : D × List P} (hg : kg ∈ find_duplicates_by_hash hasher fs sd) :
    2 ≤ kg.2.length := by
  have hlen := of_decide_eq_true (List.mem_filter.mp hg).2
  omega

/-- A path found in a retained digest group was readable, hashed to the group
digest, and came from the concatenation of the input size groups. -/
theorem mem_hash_group {D P : Type} [DecidableEq D] [DecidableEq P]
    {hasher : List Nat → D} {fs : FS P} {sd : List (Nat × List P)}
    {kg : D × List P} (hg : kg ∈ find_duplicates_by_hash hasher fs sd)
    {p : P} (hp : p ∈ kg.2) :
    (∃ buf, fs.content p = some buf ∧ hasher buf = kg.1) ∧
      p ∈ sd.flatMap (fun g => g.2) := by
  have hmem := List.mem_of_mem_filter hg
  rw [hashLoop_eq] at hmem
  have h2 := mem_of_mem_groupAcc hmem hp
  refine ⟨?_, h2.2⟩
  have hk := h2.1
  cases hc : fs.content p with
  | none =>
      rw [hash_file_none hasher fs p 65536 hc] at hk
      cases hk
  | some buf =>
      rw [hash_file_eq hasher fs p 65536 (by omega) buf hc] at hk
      exact ⟨buf, rfl, Option.some.inj hk⟩

/-- A list of at least two distinct elements containing p contains an element
other than p. -/
theorem exists_other_mem {α : Type} {l : List α} {p : α} (hnd : l.Nodup)
    (hp : p ∈ l) (hlen : 2 ≤ l.length) : ∃ q ∈ l, q ≠ p := by
  rcases l with _ | ⟨a, _ | ⟨b, rest⟩⟩
  · simp at hp
  · simp at hlen
  · by_cases hap : a = p
    · subst hap
      refine ⟨b, by simp, fun hbp => ?_⟩
      have hnmem := (List.nodup_cons.mp hnd).1
      exact hnmem (List.mem_cons.mpr (Or.inl hbp.symm))
    · exact ⟨a, by simp, hap⟩

/-- On a duplicate-free walk, the concatenation of all retained size groups
lists each path at most once: each group is duplicate-free and two distinct
retained groups, having distinct size keys, are disjoint. -/
theorem size_flat_nodup {P : Type} [DecidableEq P] (fs : FS P)
    (hnd : fs.walk.Nodup) :
    ((find_duplicates_by_size fs).flatMap (fun g => g.2)).Nodup := by
  rw [List.nodup_flatMap]
  constructor
  · intro g hg
    have hflt := mem_groupAcc_eq_filter (List.mem_of_mem_filter hg)
    rw [hflt]
    exact hnd.filter _
  · have hkeys : ((find_duplicates_by_size fs).map Prod.fst).Nodup := by
      have hsub : (find_duplicates_by_size fs).Sublist
          (groupAcc fs.size fs.walk []) := List.filter_sublist _
      exact (groupAcc_keys_nodup fs.size fs.walk).sublist (hsub.map Prod.fst)
    have hpw : (find_duplicates_by_size fs).Pairwise (fun a b => a.1 ≠ b.1) :=
      List.pairwise_map.mp hkeys
    refine hpw.imp_of_mem ?_
    intro a b ha hb hne
    intro p hpa hpb
    have h1 := (mem_size_group ha hpa).2
    have h2 := (mem_size_group hb hpb).2
    exact hne (Option.some.inj (h1.symm.trans h2))

/-- A digest used throughout the witnesses: the identity on byte lists, an
injective stand-in for a collision-free content hash. -/
def idDigest : List Nat → List Nat := fun buf => buf

/-- A concrete walk over six files: files 0 and 1 hold the same five bytes,
file 2 holds five different bytes, file 3 has a unique three-byte size, the
stat of file 4 fails, and file 5 shares size five but its read fails, as for a
file deleted between the size pass and the hash pass. -/
def fsEx : FS Nat where
  walk := [0, 1, 2, 3, 4, 5]
  size := fun p =>
    if p = 0 then some 5
    else if p = 1 then some 5
    else if p = 2 then some 5
    else if p = 3 then some 3
    else if p = 4 then none
    else if p = 5 then some 5
    else none
  content := fun p =>
    if p = 0 then some [104, 101, 108, 108, 111]
    else if p = 1 then some [104, 101, 108, 108, 111]
    else if p = 2 then some [119, 111, 114, 108, 100]
    else if p = 3 then some [1, 2, 3]
    else none

/-- The same tree as fsEx observed by a second run: identical on every walked
path, chosen to differ from fsEx on paths outside the walk. -/
def fsEx2 : FS Nat where
  walk := [0, 1, 2, 3, 4, 5]
  size := fun p => if p ≤ 5 then fsEx.size p else some 99
  content := fun p => if p ≤ 5 then fsEx.content p else some [7]

/-- Two files of different sizes, one byte and two bytes, each duplicated. -/
def fsC2 : FS Nat where
  walk := [0, 1, 2, 3]
  size := fun p => if p < 2 then some 1 else if p < 4 then some 2 else none
  content := fun p =>
    if p < 2 then some [0] else if p < 4 then some [0, 1] else none

/-- A digest that collides everywhere: every content maps to the same value,
exhibiting the behavior of a fixed-output hash on colliding inputs. -/
def constDigest : List Nat → Nat := fun _ => 0

/-- A directory holding exactly two zero-byte files. -/
def fsZero : FS Nat where
  walk := [0, 1]
  size := fun _ => some 0
  content := fun _ => some []

/-- Modelled from the os.walk semantics the source relies on: os.walk called
on a missing, unreadable or non-directory root passes the failure to its
onerror argument, which find_duplicates_by_size leaves at the default None, so
the walk yields no entries and raises nothing; every per-path call would fail. -/
def fsInvalidRoot : FS Nat where
  walk := []
  size := fun _ => none
  content := fun _ => none

/-- A genuinely empty directory: the walk yields no files and no call fails. -/
def fsEmptyDir : FS Nat where
  walk := []
  size := fun _ => some 0
  content := fun _ => some []

/-- The hash pass of fsEx, evaluated: one retained group holding the two
paths whose five bytes agree. -/
theorem fsEx_hash_eval :
    find_duplicates_by_hash idDigest fsEx (find_duplicates_by_size fsEx) =
      [([104, 101, 108, 108, 111], [0, 1])] := by
  have hsd : find_duplicates_by_size fsEx = [(5, [0, 1, 2, 5])] := by decide
  have h0 : hash_file idDigest fsEx 0 = some [104, 101, 108, 108, 111] :=
    hash_file_eq idDigest fsEx 0 65536 (by omega) [104, 101, 108, 108, 111]
      (by decide)
  have h1 : hash_file idDigest fsEx 1 = some [104, 101, 108, 108, 111] :=
    hash_file_eq idDigest fsEx 1 65536 (by omega) [104, 101, 108, 108, 111]
      (by decide)
  have h2 : hash_file idDigest fsEx 2 = some [119, 111, 114, 108, 100] :=
    hash_file_eq idDigest fsEx 2 65536 (by omega) [119, 111, 114, 108, 100]
      (by decide)
  have h5 : hash_file idDigest fsEx 5 = none :=
    hash_file_none idDigest fsEx 5 65536 (by decide)
  simp only [find_duplicates_by_hash, hsd, hashLoop, groupAcc, h0, h1, h2, h5,
    insertGroup]
  decide

/-- C1: any two paths in one output group of find_duplicates_by_hash hold
bytes whose digests both equal the group digest, hence byte-identical content
whenever the digest is collision-free; digest equality is what the code takes
as proof of duplication. -/
theorem C1_digest_groups_sound {D P : Type} [DecidableEq D] [DecidableEq P]
    (hasher : List Nat → D) (hinj : Function.Injective hasher)
    (fs : FS P) (size_dict : List (Nat × List P))
    (kg : D × List P) (hg : kg ∈ find_duplicates_by_hash hasher fs size_dict)
    (p q : P) (hp : p ∈ kg.2) (hq : q ∈ kg.2) :
    ∃ buf : List Nat, fs.content p = some buf ∧ fs.content q = some buf ∧
      hasher buf = kg.1 := by
  obtain ⟨⟨bp, hbp, hdp⟩, -⟩ := mem_hash_group hg hp
  obtain ⟨⟨bq, hbq, hdq⟩, -⟩ := mem_hash_group hg hq
  have hbb : bp = bq := hinj (hdp.trans hdq.symm)
  subst hbb
  exact ⟨bp, hbp, hbq, hdp⟩

theorem C1_witness :
    ∃ buf : List Nat, fsEx.content 0 = some buf ∧ fsEx.content 1 = some buf ∧
      idDigest buf = [104, 101, 108, 108, 111] :=
  C1_digest_groups_sound idDigest (fun a b h => h) fsEx
    (find_duplicates_by_size fsEx) ([104, 101, 108, 108, 111], [0, 1])
    (by rw [fsEx_hash_eval]; decide) 0 1 (by decide) (by decide)

/-- C2 counterexample: the digest dictionary of find_duplicates_by_hash is one
dictionary shared across all size groups, so under a digest collision the
one-byte files 0, 1 and the two-byte files 2, 3 land in a single output group:
files of different byte sizes appear together. -/
theorem C2_counterexample :
    find_duplicates_by_hash constDigest fsC2 (find_duplicates_by_size fsC2) =
      [(0, [0, 1, 2, 3])] ∧
    fsC2.content 0 = some [0] ∧ fsC2.content 2 = some [0, 1] := by
  have hsd : find_duplicates_by_size fsC2 = [(1, [0, 1]), (2, [2, 3])] := by
    decide
  have h0 : hash_file constDigest fsC2 0 = some 0 :=
    hash_file_eq constDigest fsC2 0 65536 (by omega) [0] (by decide)
  have h1 : hash_file constDigest fsC2 1 = some 0 :=
    hash_file_eq constDigest fsC2 1 65536 (by omega) [0] (by decide)
  have h2 : hash_file constDigest fsC2 2 = some 0 :=
    hash_file_eq constDigest fsC2 2 65536 (by omega) [0, 1] (by decide)
  have h3 : hash_file constDigest fsC2 3 = some 0 :=
    hash_file_eq constDigest fsC2 3 65536 (by omega) [0, 1] (by decide)
  refine ⟨?_, by decide, by decide⟩
  simp only [find_duplicates_by_hash, hsd, hashLoop, groupAcc, h0, h1, h2, h3,
    insertGroup]
  decide

/-- C2 amended: two paths in one output group of find_duplicates_by_hash hold
contents of equal byte length provided the digest is injective on contents, no
matter what size-group mapping is passed in; the guarantee comes from digest
equality, not from any per-size-group construction. -/
theorem C2_same_length_within_group {D P : Type} [DecidableEq D] [DecidableEq P]
    (hasher : List Nat → D) (hinj : Function.Injective hasher)
    (fs : FS P) (size_dict : List (Nat × List P))
    (kg : D × List P) (hg : kg ∈ find_duplicates_by_hash hasher fs size_dict)
    (p q : P) (hp : p ∈ kg.2) (hq : q ∈ kg.2) :
    ∃ bp bq : List Nat, fs.content p = some bp ∧ fs.content q = some bq ∧
      bp.length = bq.length := by
  obtain ⟨⟨bp, hbp, hdp⟩, -⟩ := mem_hash_group hg hp
  obtain ⟨⟨bq, hbq, hdq⟩, -⟩ := mem_hash_group hg hq
  have hbb : bp = bq := hinj (hdp.trans hdq.symm)
  exact ⟨bp, bq, hbp, hbq, by rw [hbb]⟩

theorem C2_witness :
    ∃ bp bq : List Nat, fsEx.content 0 = some bp ∧ fsEx.content 1 = some bq ∧
      bp.length = bq.length :=
  C2_same_length_within_group idDigest (fun a b h => h) fsEx
    (find_duplicates_by_size fsEx) ([104, 101, 108, 108, 111], [0, 1])
    (by rw [fsEx_hash_eval]; decide) 0 1 (by decide) (by decide)

/-- C3: every group retained by find_duplicates_by_size and every group
retained by find_duplicates_by_hash has at least two members; a file of unique
size on a duplicate-free walk lies in no size group and is never reached by
the hash pass, and a file of unique content, under a collision-free digest,
lies in no output group of the full pipeline. -/
theorem C3_group_invariants {D P : Type} [DecidableEq D] [DecidableEq P]
    (hasher : List Nat → D) (hinj : Function.Injective hasher)
    (fs : FS P) (hnd : fs.walk.Nodup) :
    (∀ g ∈ find_duplicates_by_size fs, 2 ≤ g.2.length) ∧
    (∀ (sd : List (Nat × List P)) (kg : D × List P),
      kg ∈ find_duplicates_by_hash hasher fs sd → 2 ≤ kg.2.length) ∧
    (∀ (p : P) (n : Nat), p ∈ fs.walk → fs.size p = some n →
      (∀ q ∈ fs.walk, q ≠ p → fs.size q ≠ some n) →
      (∀ g ∈ find_duplicates_by_size fs, p ∉ g.2) ∧
        p ∉ (find_duplicates_by_size fs).flatMap (fun g => g.2)) ∧
    (∀ (p : P) (buf : List Nat), fs.content p = some buf →
      (∀ q ∈ fs.walk, q ≠ p → fs.content q ≠ some buf) →
      ∀ kg ∈ find_duplicates_by_hash hasher fs (find_duplicates_by_size fs),
        p ∉ kg.2) := by
  have hsize_unique : ∀ (p : P) (n : Nat), p ∈ fs.walk → fs.size p = some n →
      (∀ q ∈ fs.walk, q ≠ p → fs.size q ≠ some n) →
      ∀ g ∈ find_duplicates_by_size fs, p ∉ g.2 := by
    intro p n hp hn huniq g hg hpg
    have hkey := (mem_size_group hg hpg).2
    have hg2 : g.2 = fs.walk.filter (fun v => decide (fs.size v = some g.1)) :=
      mem_groupAcc_eq_filter (List.mem_of_mem_filter hg)
    have hg2nd : g.2.Nodup := by
      rw [hg2]
      exact hnd.filter _
    obtain ⟨q, hq, hqp⟩ := exists_other_mem hg2nd hpg (size_group_two_le hg)
    have hqdata := mem_size_group hg hq
    apply huniq q hqdata.1 hqp
    rw [hqdata.2, ← hkey]
    exact hn
  refine ⟨fun g hg => size_group_two_le hg,
    fun sd kg hg => hash_group_two_le hg, ?_, ?_⟩
  · intro p n hp hn huniq
    refine ⟨hsize_unique p n hp hn huniq, ?_⟩
    intro hflat
    obtain ⟨g, hg, hpg⟩ := List.mem_flatMap.mp hflat
    exact hsize_unique p n hp hn huniq g hg hpg
  · intro p buf hc huniq kg hg hpkg
    have hflatnd : ((find_duplicates_by_size fs).flatMap (fun g => g.2)).Nodup :=
      size_flat_nodup fs hnd
    have hkg2 : kg.2 =
        ((find_duplicates_by_size fs).flatMap (fun g => g.2)).filter
          (fun v => decide (hash_file hasher fs v = some kg.1)) := by
      have hmem := List.mem_of_mem_filter hg
      rw [hashLoop_eq] at hmem
      exact mem_groupAcc_eq_filter hmem
    have hkg2nd : kg.2.Nodup := by
      rw [hkg2]
      exact hflatnd.filter _
    obtain ⟨q, hq, hqp⟩ := exists_other_mem hkg2nd hpkg (hash_group_two_le hg)
    obtain ⟨⟨bq, hbq, hdq⟩, hqflat⟩ := mem_hash_group hg hq
    obtain ⟨⟨bp, hbp, hdp⟩, -⟩ := mem_hash_group hg hpkg
    obtain rfl : bp = buf := Option.some.inj (hbp.symm.trans hc)
    have hbqbuf : bq = bp := hinj (hdq.trans hdp.symm)
    obtain ⟨g', hg', hqg'⟩ := List.mem_flatMap.mp hqflat
    apply huniq q (mem_size_group hg' hqg').1 hqp
    rw [hbq, hbqbuf]

theorem C3_witness :
    (∀ g ∈ find_duplicates_by_size fsEx, 2 ≤ g.2.length) ∧
    (∀ (sd : List (Nat × List Nat)) (kg : List Nat × List Nat),
      kg ∈ find_duplicates_by_hash idDigest fsEx sd → 2 ≤ kg.2.length) ∧
    (∀ (p : Nat) (n : Nat), p ∈ fsEx.walk → fsEx.size p = some n →
      (∀ q ∈ fsEx.walk, q ≠ p → fsEx.size q ≠ some n) →
      (∀ g ∈ find_duplicates_by_size fsEx, p ∉ g.2) ∧
        p ∉ (find_duplicates_by_size fsEx).flatMap (fun g => g.2)) ∧
    (∀ (p : Nat) (buf : List Nat), fsEx.content p = some buf →
      (∀ q ∈ fsEx.walk, q ≠ p → fsEx.content q ≠ some buf) →
      ∀ kg ∈ find_duplicates_by_hash idDigest fsEx (find_duplicates_by_size fsEx),
        p ∉ kg.2) :=
  C3_group_invariants idDigest (fun a b h => h) fsEx (by decide)

/-- C4: a walked file whose stat fails gets a diagnostic, appears in no size
group, and the scan result is the same as if the failing files were absent
from the walk: a per-file stat failure never disturbs the remaining entries. -/
theorem C4_stat_failure_recoverable {P : Type} [DecidableEq P] (fs : FS P)
    (p : P) (hp : p ∈ fs.walk) (hfail : fs.size p = none) :
    p ∈ size_errors fs ∧
    (∀ g ∈ find_duplicates_by_size fs, p ∉ g.2) ∧
    find_duplicates_by_size fs =
      find_duplicates_by_size
        ⟨fs.walk.filter (fun q => (fs.size q).isSome), fs.size, fs.content⟩ := by
  refine ⟨?_, ?_, ?_⟩
  · exact List.mem_filter.mpr ⟨hp, by simp [size_errors, hfail]⟩
  · intro g hg hpg
    have hkey := (mem_size_group hg hpg).2
    rw [hfail] at hkey
    cases hkey
  · simp only [find_duplicates_by_size]
    rw [groupAcc_filter_isSome]

theorem C4_witness :
    4 ∈ size_errors fsEx ∧
    (∀ g ∈ find_duplicates_by_size fsEx, 4 ∉ g.2) ∧
    find_duplicates_by_size fsEx =
      find_duplicates_by_size
        ⟨fsEx.walk.filter (fun q => (fsEx.size q).isSome),
          fsEx.size, fsEx.content⟩ :=
  C4_stat_failure_recoverable fsEx 4 (by decide) (by decide)

/-- Dropping the unreadable paths from every size group drops exactly the
unreadable paths from the concatenated hash-pass input. -/
theorem flatMap_filter_content {P : Type} (fs : FS P)
    (sd : List (Nat × List P)) :
    ((sd.map (fun g => (g.1, g.2.filter (fun q => (fs.content q).isSome)))).flatMap
        (fun g => g.2)) =
      (sd.flatMap (fun g => g.2)).filter (fun q => (fs.content q).isSome) := by
  induction sd with
  | nil => rfl
  | cons g rest ih =>
      simp only [List.map_cons, List.flatMap_cons, List.filter_append, ih]

/-- C5: a file whose open or read fails gets no digest for any block size,
gets a diagnostic when the hash pass reaches it, lies in no output group, and
the hash pass output is the same as if the unreadable paths were absent from
every input group: all-or-nothing per file, without aborting the pass. -/
theorem C5_read_failure_recoverable {D P : Type} [DecidableEq D] [DecidableEq P]
    (hasher : List Nat → D) (fs : FS P) (size_dict : List (Nat × List P))
    (p : P) (hfail : fs.content p = none) :
    (∀ block_size : Nat, hash_file hasher fs p block_size = none) ∧
    (p ∈ size_dict.flatMap (fun g => g.2) → p ∈ hash_errors fs size_dict) ∧
    (∀ kg ∈ find_duplicates_by_hash hasher fs size_dict, p ∉ kg.2) ∧
    find_duplicates_by_hash hasher fs size_dict =
      find_duplicates_by_hash hasher fs
        (size_dict.map
          (fun g => (g.1, g.2.filter (fun q => (fs.content q).isSome)))) := by
  refine ⟨fun bs => hash_file_none hasher fs p bs hfail, ?_, ?_, ?_⟩
  · intro hpf
    exact List.mem_filter.mpr ⟨hpf, by simp [hfail]⟩
  · intro kg hg hpkg
    obtain ⟨⟨buf, hbuf, -⟩, -⟩ := mem_hash_group hg hpkg
    rw [hfail] at hbuf
    cases hbuf
  · simp only [find_duplicates_by_hash]
    rw [hashLoop_eq, hashLoop_eq, flatMap_filter_content]
    congr 1
    have hpred : ∀ q ∈ size_dict.flatMap (fun g => g.2),
        ((fs.content q).isSome : Bool) =
          ((hash_file hasher fs q).isSome : Bool) := by
      intro q hq
      cases hcq : fs.content q with
      | none => rw [hash_file_none hasher fs q 65536 hcq]; rfl
      | some buf =>
          rw [hash_file_eq hasher fs q 65536 (by omega) buf hcq]
          rfl
    rw [List.filter_congr hpred]
    exact (groupAcc_filter_isSome (fun q => hash_file hasher fs q)
      (size_dict.flatMap (fun g => g.2)) []).symm

theorem C5_witness :
    (∀ block_size : Nat, hash_file idDigest fsEx 5 block_size = none) ∧
    (5 ∈ (find_duplicates_by_size fsEx).flatMap (fun g => g.2) →
      5 ∈ hash_errors fsEx (find_duplicates_by_size fsEx)) ∧
    (∀ kg ∈ find_duplicates_by_hash idDigest fsEx (find_duplicates_by_size fsEx),
      5 ∉ kg.2) ∧
    find_duplicates_by_hash idDigest fsEx (find_duplicates_by_size fsEx) =
      find_duplicates_by_hash idDigest fsEx
        ((find_duplicates_by_size fsEx).map
          (fun g => (g.1, g.2.filter (fun q => (fsEx.content q).isSome)))) :=
  C5_read_failure_recoverable idDigest fsEx (find_duplicates_by_size fsEx) 5
    (by decide)

/-- C6 counterexample: on an invalid root, os.walk yields no entries and raises
nothing, so the main block produces exactly the observable outcome of an empty
directory, the no-duplicates-by-size message, and exits zero: no failure
distinct from an empty result is ever reported. -/
theorem C6_counterexample :
    main_scan idDigest fsInvalidRoot = ScanReport.noSizeDuplicates ∧
    main_scan idDigest fsInvalidRoot = main_scan idDigest fsEmptyDir ∧
    main_exit_code idDigest fsInvalidRoot = 0 :=
  ⟨rfl, rfl, rfl⟩

/-- C6 amended: when the root path is invalid, inaccessible or not a
directory, the walk yields no entries, the scan returns the empty mapping, the
main block reports no duplicates found based on size exactly as for an empty
directory, and the process exits zero; the failure is silently swallowed
rather than surfaced as a distinct outcome. -/
theorem C6_invalid_root_silent_empty {D P : Type} [DecidableEq D]
    [DecidableEq P] (hasher : List Nat → D) (fs : FS P) (hw : fs.walk = []) :
    find_duplicates_by_size fs = [] ∧
    main_scan hasher fs = ScanReport.noSizeDuplicates ∧
    main_exit_code hasher fs = 0 := by
  have h1 : find_duplicates_by_size fs = [] := by
    simp [find_duplicates_by_size, hw, groupAcc]
  refine ⟨h1, ?_, rfl⟩
  simp [main_scan, h1]

theorem C6_witness :
    find_duplicates_by_size fsInvalidRoot = [] ∧
    main_scan idDigest fsInvalidRoot = ScanReport.noSizeDuplicates ∧
    main_exit_code idDigest fsInvalidRoot = 0 :=
  C6_invalid_root_silent_empty idDigest fsInvalidRoot rfl

/-- C7: hash_file streams the readable file in chunks of any positive block
size and the accumulated digest is the digest of the entire content, so the
block size, 64 KiB by default, does not affect the result. -/
theorem C7_chunked_hash_eq_whole {D P : Type} (hasher : List Nat → D)
    (fs : FS P) (p : P) (buf : List Nat) (hc : fs.content p = some buf)
    (block_size : Nat) (hbs : 0 < block_size) :
    hash_file hasher fs p block_size = some (hasher buf) ∧
    hash_file hasher fs p block_size = hash_file hasher fs p 65536 := by
  have h1 := hash_file_eq hasher fs p block_size hbs buf hc
  have h2 := hash_file_eq hasher fs p 65536 (by omega) buf hc
  exact ⟨h1, h1.trans h2.symm⟩

theorem C7_witness :
    hash_file idDigest fsEx 0 7 = some (idDigest [104, 101, 108, 108, 111]) ∧
    hash_file idDigest fsEx 0 7 = hash_file idDigest fsEx 0 65536 :=
  C7_chunked_hash_eq_whole idDigest fsEx 0 [104, 101, 108, 108, 111]
    (by decide) 7 (by omega)

/-- C8: a directory of exactly two zero-byte files yields the single size
group of size zero, both files hash successfully to the digest of the empty
content, and the pipeline reports them as one duplicate group; a successfully
hashed empty file is never dropped as a failure. -/
theorem C8_zero_byte_duplicates {D P : Type} [DecidableEq D] [DecidableEq P]
    (hasher : List Nat → D) (fs : FS P) (a b : P) (hab : a ≠ b)
    (hw : fs.walk = [a, b])
    (hsa : fs.size a = some 0) (hsb : fs.size b = some 0)
    (hca : fs.content a = some []) (hcb : fs.content b = some []) :
    find_duplicates_by_size fs = [(0, [a, b])] ∧
    find_duplicates_by_hash hasher fs (find_duplicates_by_size fs) =
      [(hasher [], [a, b])] ∧
    hash_file hasher fs a = some (hasher []) ∧
    hash_file hasher fs b = some (hasher []) := by
  have hha : hash_file hasher fs a = some (hasher []) :=
    hash_file_eq hasher fs a 65536 (by omega) [] hca
  have hhb : hash_file hasher fs b = some (hasher []) :=
    hash_file_eq hasher fs b 65536 (by omega) [] hcb
  have hsd : find_duplicates_by_size fs = [(0, [a, b])] := by
    simp [find_duplicates_by_size, hw, groupAcc, hsa, hsb, insertGroup]
  refine ⟨hsd, ?_, hha, hhb⟩
  simp [find_duplicates_by_hash, hsd, hashLoop, groupAcc, hha, hhb, insertGroup]

theorem C8_witness :
    find_duplicates_by_size fsZero = [(0, [0, 1])] ∧
    find_duplicates_by_hash idDigest fsZero (find_duplicates_by_size fsZero) =
      [(idDigest [], [0, 1])] ∧
    hash_file idDigest fsZero 0 = some (idDigest []) ∧
    hash_file idDigest fsZero 1 = some (idDigest []) :=
  C8_zero_byte_duplicates idDigest fsZero 0 1 (by decide) rfl rfl rfl rfl rfl

/-- C9: two runs of the pipeline over file systems that agree on the walk and,
on every walked path, on sizes and contents, produce identical size groups and
identical digest groups: the scan of a static tree is deterministic. -/
theorem C9_scan_deterministic {D P : Type} [DecidableEq D] [DecidableEq P]
    (hasher : List Nat → D) (fs₁ fs₂ : FS P)
    (hw : fs₁.walk = fs₂.walk)
    (hs : ∀ p ∈ fs₁.walk, fs₁.size p = fs₂.size p)
    (hc : ∀ p ∈ fs₁.walk, fs₁.content p = fs₂.content p) :
    find_duplicates_by_size fs₁ = find_duplicates_by_size fs₂ ∧
    find_duplicates_by_hash hasher fs₁ (find_duplicates_by_size fs₁) =
      find_duplicates_by_hash hasher fs₂ (find_duplicates_by_size fs₂) := by
  have hsize : find_duplicates_by_size fs₁ = find_duplicates_by_size fs₂ := by
    simp only [find_duplicates_by_size]
    rw [groupAcc_congr hs, hw]
  refine ⟨hsize, ?_⟩
  simp only [find_duplicates_by_hash]
  rw [← hsize, hashLoop_eq, hashLoop_eq]
  congr 1
  refine groupAcc_congr ?_ []
  intro q hq
  obtain ⟨g, hg, hqg⟩ := List.mem_flatMap.mp hq
  have hqwalk := (mem_size_group hg hqg).1
  simp only [hash_file]
  rw [hc q hqwalk]

theorem C9_witness :
    find_duplicates_by_size fsEx = find_duplicates_by_size fsEx2 ∧
    find_duplicates_by_hash idDigest fsEx (find_duplicates_by_size fsEx) =
      find_duplicates_by_hash idDigest fsEx2 (find_duplicates_by_size fsEx2) :=
  C9_scan_deterministic idDigest fsEx fsEx2 rfl (by decide) (by decide)

/-- C10: every path of every output group of find_duplicates_by_hash occurs
in some list of the input mapping, and each output group is a sublist of the
concatenation of the input lists, so paths keep the relative order in which
the traversal of the input lists meets them. -/
theorem C10_output_paths_from_input {D P : Type} [DecidableEq D] [DecidableEq P]
    (hasher : List Nat → D) (fs : FS P) (size_dict : List (Nat × List P))
    (kg : D × List P) (hg : kg ∈ find_duplicates_by_hash hasher fs size_dict) :
    (∀ p ∈ kg.2, ∃ g ∈ size_dict, p ∈ g.2) ∧
    kg.2.Sublist (size_dict.flatMap (fun g => g.2)) := by
  have hmem := List.mem_of_mem_filter hg
  rw [hashLoop_eq] at hmem
  constructor
  · intro p hp
    exact List.mem_flatMap.mp (mem_of_mem_groupAcc hmem hp).2
  · rw [mem_groupAcc_eq_filter hmem]
    exact List.filter_sublist _

theorem C10_witness :
    (∀ p ∈ ([0, 1] : List Nat), ∃ g ∈ find_duplicates_by_size fsEx, p ∈ g.2) ∧
    ([0, 1] : List Nat).Sublist
      ((find_duplicates_by_size fsEx).flatMap (fun g => g.2)) :=
  C10_output_paths_from_input idDigest fsEx (find_duplicates_by_size fsEx)
    ([104, 101, 108, 108, 111], [0, 1]) (by rw [fsEx_hash_eval]; decide)

end TwinTrim
